import Mathlib

/-!
Verification of the Ollama service lifecycle manager and streaming protocol
client of the privatepdf repository (src/src-tauri/src/ollama.rs).

The Rust code is shallowly embedded: network chunks are lists of bytes,
decoded chunk-by-chunk with a model of String::from_utf8_lossy into lists
of characters exactly as the source does (the character-level loop is also
exposed separately, since most claims are about the decoded content),
JSON values become an inductive type mirroring serde_json::Value, HTTP and
process outcomes become explicit data passed to the modelled functions, and
the fire-and-forget window.emit side channel becomes an accumulated list of
emitted payloads.  serde_json::from_str is a pure function of the line, so
the decoding loops are parameterised by an arbitrary parse function.
-/

/-- Model of serde_json::Value.  Numbers are idealised as rationals: the
claims under study never perform float arithmetic on decoded numbers other
than the progress percentage, which no claim constrains. -/
inductive Json where
  | null : Json
  | bool (b : Bool) : Json
  | num (q : Rat) : Json
  | str (s : String) : Json
  | arr (elems : List Json) : Json
  | obj (fields : List (String × Json)) : Json

namespace Json

/-- serde_json::Value::get on an object: Some value for the first matching
key of an object, None for a missing key or a non-object. -/
def get : Json → String → Option Json
  | obj fields, k => (fields.find? (fun f => f.1 == k)).map (·.2)
  | _, _ => none

/-- Indexing a &serde_json::Value (data["models"]): the value for the key
when present, Value::Null for a missing key or a non-object. -/
def index (j : Json) (k : String) : Json := (j.get k).getD Json.null

/-- serde_json::Value::as_str. -/
def as_str : Json → Option String
  | str s => some s
  | _ => none

/-- serde_json::Value::as_bool. -/
def as_bool : Json → Option Bool
  | bool b => some b
  | _ => none

/-- serde_json::Value::as_u64 (idealised: any modelled number qualifies when
it is a non-negative integer). -/
def as_u64 : Json → Option Nat
  | num q => if q.den = 1 ∧ 0 ≤ q.num then some q.num.toNat else none
  | _ => none

/-- serde_json::Value::as_array. -/
def as_array : Json → Option (List Json)
  | arr elems => some elems
  | _ => none

end Json

/-- line.trim().is_empty(): true iff every character of the line is
whitespace. -/
def isBlank (line : List Char) : Bool := line.all Char.isWhitespace

/-! ## The NDJSON buffer-drain loop

Both ollama_chat_stream and download_ollama_model run

    while let Some(newline_idx) = buffer.find('\n') {
        let line = buffer[..newline_idx].to_string();
        buffer = buffer[newline_idx + 1..].to_string();
        ... }

buffer.find('\n') with the split is modelled by splitFirstNL, and the while
loop by drainLoop, recursing on the strictly shorter remaining buffer. -/

/-- buffer.find('\n') together with the two slices: the prefix before the
first newline and the suffix after it, or none when no newline occurs. -/
def splitFirstNL : List Char → Option (List Char × List Char)
  | [] => none
  | c :: rest =>
    if c = '\n' then some ([], rest)
    else (splitFirstNL rest).map (fun p => (c :: p.1, p.2))

theorem splitFirstNL_length {buf line rest : List Char}
    (h : splitFirstNL buf = some (line, rest)) : rest.length < buf.length := by
  induction buf generalizing line rest with
  | nil => simp [splitFirstNL] at h
  | cons c cs ih =>
    by_cases hc : c = '\n'
    · rw [splitFirstNL, if_pos hc] at h
      cases h
      simp
    · rw [splitFirstNL, if_neg hc] at h
      cases h' : splitFirstNL cs with
      | none => rw [h'] at h; simp at h
      | some p =>
        obtain ⟨l', r'⟩ := p
        rw [h'] at h
        cases h
        have := ih h'
        simp only [List.length_cons]
        omega

/-- The while loop of the decoders: extract every newline-terminated line in
order, returning the extracted lines and the final buffer (which contains no
newline and is kept for the next chunk). -/
def drainLoop (buf : List Char) : List (List Char) × List Char :=
  match h : splitFirstNL buf with
  | none => ([], buf)
  | some (line, rest) =>
    let (ls, b) := drainLoop rest
    (line :: ls, b)
termination_by buf.length
decreasing_by exact splitFirstNL_length h

/-- Structural companion of drainLoop, convenient for induction. -/
def drain : List Char → List (List Char) × List Char
  | [] => ([], [])
  | c :: rest =>
    let (ls, b) := drain rest
    if c = '\n' then ([] :: ls, b)
    else
      match ls with
      | [] => ([], c :: b)
      | l :: ls' => ((c :: l) :: ls', b)

theorem splitFirstNL_none_drain {buf : List Char} (h : splitFirstNL buf = none) :
    drain buf = ([], buf) := by
  induction buf with
  | nil => simp [drain]
  | cons c cs ih =>
    by_cases hc : c = '\n'
    · rw [splitFirstNL, if_pos hc] at h
      simp at h
    · rw [splitFirstNL, if_neg hc] at h
      cases h' : splitFirstNL cs with
      | none => simp [drain, hc, ih h']
      | some p => rw [h'] at h; simp at h

theorem splitFirstNL_some_drain {buf line rest : List Char}
    (h : splitFirstNL buf = some (line, rest)) :
    drain buf = (line :: (drain rest).1, (drain rest).2) := by
  induction buf generalizing line rest with
  | nil => simp [splitFirstNL] at h
  | cons c cs ih =>
    by_cases hc : c = '\n'
    · rw [splitFirstNL, if_pos hc] at h
      cases h
      subst hc
      simp [drain]
    · rw [splitFirstNL, if_neg hc] at h
      cases h' : splitFirstNL cs with
      | none => rw [h'] at h; simp at h
      | some p =>
        obtain ⟨l', r'⟩ := p
        rw [h'] at h
        cases h
        have := ih h'
        simp [drain, hc, this]

/-- The loop of the source and the structural recursion agree. -/
theorem drainLoop_eq_drain (buf : List Char) : drainLoop buf = drain buf := by
  have H : ∀ n (buf : List Char), buf.length ≤ n → drainLoop buf = drain buf := by
    intro n
    induction n with
    | zero =>
      intro buf hb
      have hbuf : buf = [] := List.length_eq_zero.mp (Nat.le_zero.mp hb)
      subst hbuf
      rw [drainLoop]
      split
      · simp [drain]
      · rename_i line rest h
        simp [splitFirstNL] at h
    | succ n ih =>
      intro buf hb
      rw [drainLoop]
      split
      · rename_i h
        simp [splitFirstNL_none_drain h]
      · rename_i line rest h
        have hlen := splitFirstNL_length h
        have hr := ih rest (by omega)
        simp [hr, splitFirstNL_some_drain h]
  exact H buf.length buf le_rfl

theorem drainLoop_nil : drainLoop [] = ([], []) := by
  rw [drainLoop_eq_drain]
  simp [drain]

/-- A buffer without a newline is left untouched by the drain loop. -/
theorem drain_of_no_newline {buf : List Char} (h : '\n' ∉ buf) :
    drain buf = ([], buf) := by
  induction buf with
  | nil => simp [drain]
  | cons c cs ih =>
    have hc : c ≠ '\n' := fun hcn => h (hcn ▸ List.mem_cons_self c cs)
    have hcs : '\n' ∉ cs := fun hm => h (List.mem_cons_of_mem c hm)
    simp [drain, hc, ih hcs]

/-- The final buffer left by the drain loop never contains a newline: a
record still in progress is never treated as complete. -/
theorem drain_no_newline (buf : List Char) : '\n' ∉ (drain buf).2 := by
  induction buf with
  | nil => simp [drain]
  | cons c cs ih =>
    by_cases hc : c = '\n'
    · simpa [drain, hc] using ih
    · cases hcs : (drain cs).1 with
      | nil =>
        have hdr : drain (c :: cs) = ([], c :: (drain cs).2) := by
          simp [drain, hc, hcs]
        rw [hdr]
        simp only [List.mem_cons, not_or]
        exact ⟨fun hcn => hc hcn.symm, ih⟩
      | cons l ls =>
        simpa [drain, hc, hcs] using ih

/-- Draining a concatenation first drains the left part, then drains the
leftover buffer extended with the right part. -/
theorem drain_append (a b : List Char) :
    drain (a ++ b) =
      ((drain a).1 ++ (drain ((drain a).2 ++ b)).1,
       (drain ((drain a).2 ++ b)).2) := by
  induction a with
  | nil => simp [drain]
  | cons c cs ih =>
    by_cases hc : c = '\n'
    · subst hc
      simp [drain, ih]
    · cases hcs : (drain cs).1 with
      | nil =>
        simp [drain, hc, ih, hcs]
      | cons l ls =>
        simp [drain, hc, ih, hcs]

/-! ## The streaming record decoder shared by ollama_chat_stream and
download_ollama_model: accumulate chunks into the buffer, drain complete
lines, skip blank lines, parse each remaining line as one JSON record
(records that fail to parse are skipped). -/

/-- The record contributed by one extracted line: none for a blank line
(line.trim().is_empty() → continue) and for a line the parse function
rejects, otherwise the parsed record. -/
def lineRecord (parse : List Char → Option Json) (line : List Char) :
    Option Json :=
  if isBlank line then none else parse line

/-- Processing of the character content contributed by one network chunk
(the source first decodes each byte chunk with String::from_utf8_lossy;
byteFeedChunk below composes that step): append it to the buffer, drain all
complete lines, emit their records in order, keep the remainder buffered. -/
def feedChunk (parse : List Char → Option Json)
    (st : List Json × List Char) (chunk : List Char) : List Json × List Char :=
  let (ls, buf) := drainLoop (st.2 ++ chunk)
  (st.1 ++ ls.filterMap (lineRecord parse), buf)

/-- The decoder run over a whole sequence of chunks, starting from the empty
buffer: the ordered list of decoded records and the final buffer. -/
def decodeChunks (parse : List Char → Option Json)
    (chunks : List (List Char)) : List Json × List Char :=
  chunks.foldl (feedChunk parse) ([], [])

theorem feedChunk_def (parse : List Char → Option Json)
    (st : List Json × List Char) (chunk : List Char) :
    feedChunk parse st chunk =
      (st.1 ++ ((drain (st.2 ++ chunk)).1).filterMap (lineRecord parse),
       (drain (st.2 ++ chunk)).2) := by
  simp [feedChunk, drainLoop_eq_drain]

theorem feedChunk_append (parse : List Char → Option Json)
    (st : List Json × List Char) (c1 c2 : List Char) :
    feedChunk parse st (c1 ++ c2) = feedChunk parse (feedChunk parse st c1) c2 := by
  simp only [feedChunk_def]
  rw [← List.append_assoc st.2 c1 c2, drain_append (st.2 ++ c1) c2]
  simp [List.filterMap_append, List.append_assoc]

theorem foldl_feedChunk (parse : List Char → Option Json)
    (chunks : List (List Char)) :
    ∀ st : List Json × List Char, '\n' ∉ st.2 →
      chunks.foldl (feedChunk parse) st = feedChunk parse st chunks.flatten := by
  induction chunks with
  | nil =>
    intro st h
    simp [feedChunk_def, drain_of_no_newline h]
  | cons c cs ih =>
    intro st h
    have hnl : '\n' ∉ (feedChunk parse st c).2 := by
      rw [feedChunk_def]
      exact drain_no_newline (st.2 ++ c)
    calc (c :: cs).foldl (feedChunk parse) st
        = cs.foldl (feedChunk parse) (feedChunk parse st c) := by simp
      _ = feedChunk parse (feedChunk parse st c) cs.flatten := ih _ hnl
      _ = feedChunk parse st (c ++ cs.flatten) := (feedChunk_append parse st c cs.flatten).symm
      _ = feedChunk parse st (c :: cs).flatten := by simp

/-- Character-level split invariance: for every way of splitting a character
stream into chunks, the accumulate-and-drain loop yields the same ordered
record sequence and final buffer as the one-chunk stream, and the buffer
kept for the next chunk never contains a line break.  This is the heart of
the decoder; the byte level (with the per-chunk from_utf8_lossy of the
source) is treated below, where the byte-split version of the invariance is
refuted and the character-boundary version proved. -/
theorem decode_split_invariant (parse : List Char → Option Json) (chunks : List (List Char)) :
    decodeChunks parse chunks = decodeChunks parse [chunks.flatten] ∧
    '\n' ∉ (decodeChunks parse chunks).2 := by
  have hz : '\n' ∉ (([], []) : List Json × List Char).2 := by simp
  have h1 : decodeChunks parse chunks = feedChunk parse ([], []) chunks.flatten := by
    rw [decodeChunks, foldl_feedChunk parse chunks ([], []) hz]
  have h2 : decodeChunks parse [chunks.flatten] = feedChunk parse ([], []) chunks.flatten := by
    rw [decodeChunks, foldl_feedChunk parse [chunks.flatten] ([], []) hz]
    simp
  refine ⟨h1.trans h2.symm, ?_⟩
  rw [h1, feedChunk_def]
  exact drain_no_newline _

/-! ## The per-record processing loops

ollama_chat_stream and download_ollama_model both run the drain loop and
process each extracted line: skip it when blank, try to parse it, and on a
parsed record emit events and possibly abort with a server-reported error.
The two differ only in the per-record body, so the loop is shared here,
parameterised by a handler returning the events emitted for the record and
the optional abort message. -/

/-- Run the per-record handler over every extracted line of one chunk batch,
short-circuiting on the first abort, accumulating emitted events. -/
def ndjsonLines {E : Type} (handle : Json → List E × Option String)
    (parse : List Char → Option Json) :
    List (List Char) → List E × Option String
  | [] => ([], none)
  | l :: ls =>
    let step : List E × Option String :=
      if isBlank l then ([], none)
      else
        match parse l with
        | some data => handle data
        | none => ([], none)
    match step.2 with
    | some e => (step.1, some e)
    | none =>
      let rest := ndjsonLines handle parse ls
      (step.1 ++ rest.1, rest.2)

/-- The outer while-let loop over arriving chunks: append the chunk to the
buffer, drain complete lines, process them, and continue with the leftover
buffer unless a record aborted the call. -/
def ndjsonChunks {E : Type} (handle : Json → List E × Option String)
    (parse : List Char → Option Json) :
    List Char → List (List Char) → List E × Option String
  | _, [] => ([], none)
  | buf, c :: cs =>
    let drained := drainLoop (buf ++ c)
    let batch := ndjsonLines handle parse drained.1
    match batch.2 with
    | some e => (batch.1, some e)
    | none =>
      let rest := ndjsonChunks handle parse drained.2 cs
      (batch.1 ++ rest.1, rest.2)

/-- StreamChunk payload emitted to the ollama_stream_chunk event channel. -/
structure StreamChunk where
  content : String
  done : Bool
deriving DecidableEq

/-- message.content extraction of ollama_chat_stream:
data.get("message").and_then(|m| m.get("content")).and_then(|c| c.as_str()). -/
def chatContent (data : Json) : Option String :=
  ((data.get "message").bind (fun m => m.get "content")).bind Json.as_str

/-- done-flag extraction of ollama_chat_stream:
data.get("done").and_then(|d| d.as_bool()).unwrap_or(false). -/
def chatDone (data : Json) : Bool :=
  ((data.get "done").bind Json.as_bool).getD false

/-- Per-record body of ollama_chat_stream: emit a StreamChunk when the
record has a string message.content (reading the done flag only in that
branch), then fail the call when the record carries an error field, with
the error string or "Unknown error" when the field is not a string. -/
def chat_stream_record (data : Json) : List StreamChunk × Option String :=
  (match chatContent data with
    | some content => [⟨content, chatDone data⟩]
    | none => [],
   if (data.get "error").isSome then
     some ("Ollama error: " ++ (((data.get "error").bind Json.as_str).getD "Unknown error"))
   else none)

/-- The body-processing loop of ollama_chat_stream (lines 686-725): the
emitted StreamChunk events in order, and the call result. -/
def ollama_chat_stream_loop (parse : List Char → Option Json)
    (chunks : List (List Char)) : List StreamChunk × Except String Unit :=
  let r := ndjsonChunks chat_stream_record parse [] chunks
  (r.1, match r.2 with
        | some e => Except.error e
        | none => Except.ok ())

/-- model_download_progress payload of download_ollama_model.  The code
computes percent in f64; it is idealised here as an exact rational, which no
claim under study constrains. -/
structure PullProgress where
  model : String
  status : String
  total : Nat
  completed : Nat
  percent : Rat
deriving DecidableEq

/-- Per-record body of download_ollama_model: always emit one progress
event for a parsed record, then fail the call when the record carries an
error field holding a string. -/
def pull_record (modelName : String) (data : Json) :
    List PullProgress × Option String :=
  let status := ((data.get "status").bind Json.as_str).getD ""
  let total := ((data.get "total").bind Json.as_u64).getD 0
  let completed := ((data.get "completed").bind Json.as_u64).getD 0
  let percent : Rat := if 0 < total then (completed : Rat) / (total : Rat) * 100 else 0
  ([⟨modelName, status, total, completed, percent⟩],
   match (data.get "error").bind Json.as_str with
   | some error => some ("Ollama error: " ++ error)
   | none => none)

/-- The body-processing loop of download_ollama_model (lines 428-473). -/
def download_ollama_model_loop (modelName : String)
    (parse : List Char → Option Json) (chunks : List (List Char)) :
    List PullProgress × Except String Unit :=
  let r := ndjsonChunks (pull_record modelName) parse [] chunks
  (r.1, match r.2 with
        | some e => Except.error e
        | none => Except.ok ())

/-- The ordered sequence of records the decoder produces for a chunk
sequence. -/
def decodedRecords (parse : List Char → Option Json)
    (chunks : List (List Char)) : List Json :=
  (decodeChunks parse chunks).1

theorem decodedRecords_eq (parse : List Char → Option Json)
    (chunks : List (List Char)) :
    decodedRecords parse chunks =
      ((drain chunks.flatten).1).filterMap (lineRecord parse) := by
  have hz : '\n' ∉ (([], []) : List Json × List Char).2 := by simp
  rw [decodedRecords, decodeChunks, foldl_feedChunk parse chunks ([], []) hz,
    feedChunk_def]
  simp

/-- Record-level view of the short-circuiting line loop. -/
def processRecs {E : Type} (handle : Json → List E × Option String) :
    List Json → List E × Option String
  | [] => ([], none)
  | r :: rs =>
    match (handle r).2 with
    | some e => ((handle r).1, some e)
    | none => ((handle r).1 ++ (processRecs handle rs).1, (processRecs handle rs).2)

theorem ndjsonLines_eq_processRecs {E : Type}
    (handle : Json → List E × Option String) (parse : List Char → Option Json)
    (lines : List (List Char)) :
    ndjsonLines handle parse lines =
      processRecs handle (lines.filterMap (lineRecord parse)) := by
  induction lines with
  | nil => simp [ndjsonLines, processRecs]
  | cons l ls ih =>
    by_cases hb : isBlank l
    · simp [ndjsonLines, lineRecord, hb, ih]
    · cases hp : parse l with
      | none => simp [ndjsonLines, lineRecord, hb, hp, ih]
      | some data =>
        cases he : (chat_stream_record data).2 with
        | _ => simp [ndjsonLines, lineRecord, hb, hp, ih, processRecs]

theorem processRecs_append {E : Type}
    (handle : Json → List E × Option String) (r1 r2 : List Json) :
    processRecs handle (r1 ++ r2) =
      (match (processRecs handle r1).2 with
       | some e => ((processRecs handle r1).1, some e)
       | none => ((processRecs handle r1).1 ++ (processRecs handle r2).1,
                  (processRecs handle r2).2)) := by
  induction r1 with
  | nil => simp [processRecs]
  | cons r rs ih =>
    cases he : (handle r).2 with
    | none =>
      cases hrs : (processRecs handle rs).2 with
      | none => simp [processRecs, he, ih, hrs, List.append_assoc]
      | some e => simp [processRecs, he, ih, hrs]
    | some e => simp [processRecs, he]

/-- The chunkwise loop agrees with the record-level view over the whole
stream: chunk boundaries do not affect event emission or the abort. -/
theorem ndjsonChunks_eq_processRecs {E : Type}
    (handle : Json → List E × Option String) (parse : List Char → Option Json) :
    ∀ (chunks : List (List Char)) (buf : List Char), '\n' ∉ buf →
      ndjsonChunks handle parse buf chunks =
        processRecs handle
          (((drain (buf ++ chunks.flatten)).1).filterMap (lineRecord parse)) := by
  intro chunks
  induction chunks with
  | nil =>
    intro buf h
    simp [ndjsonChunks, drain_of_no_newline h, processRecs]
  | cons c cs ih =>
    intro buf h
    have hbuf' : '\n' ∉ (drain (buf ++ c)).2 := drain_no_newline _
    have hr : (drain (buf ++ (c :: cs).flatten)).1 =
        (drain (buf ++ c)).1 ++ (drain ((drain (buf ++ c)).2 ++ cs.flatten)).1 := by
      rw [List.flatten_cons, ← List.append_assoc, drain_append (buf ++ c) cs.flatten]
    rw [hr, List.filterMap_append, processRecs_append]
    simp only [ndjsonChunks, drainLoop_eq_drain, ndjsonLines_eq_processRecs,
      ih _ hbuf']

theorem processRecs_all_ok {E : Type}
    (handle : Json → List E × Option String) (recs : List Json)
    (h : ∀ r ∈ recs, (handle r).2 = none) :
    processRecs handle recs =
      ((recs.map (fun r => (handle r).1)).flatten, none) := by
  induction recs with
  | nil => simp [processRecs]
  | cons r rs ih =>
    have hr := h r (List.mem_cons_self r rs)
    have hrs := ih (fun x hx => h x (List.mem_cons_of_mem r hx))
    simp [processRecs, hr, hrs]

theorem processRecs_first_err {E : Type}
    (handle : Json → List E × Option String) (pre : List Json) (r : Json)
    (post : List Json) (e : String)
    (hpre : ∀ x ∈ pre, (handle x).2 = none)
    (he : (handle r).2 = some e) :
    processRecs handle (pre ++ r :: post) =
      ((pre.map (fun x => (handle x).1)).flatten ++ (handle r).1, some e) := by
  induction pre with
  | nil => simp [processRecs, he]
  | cons p ps ih =>
    have hp := hpre p (List.mem_cons_self p ps)
    have hps := ih (fun x hx => hpre x (List.mem_cons_of_mem p hx))
    simp [processRecs, hp, hps, List.append_assoc]

theorem ndjsonChunks_nil_buf {E : Type}
    (handle : Json → List E × Option String) (parse : List Char → Option Json)
    (chunks : List (List Char)) :
    ndjsonChunks handle parse [] chunks =
      processRecs handle (decodedRecords parse chunks) := by
  rw [ndjsonChunks_eq_processRecs handle parse chunks [] (by simp),
    decodedRecords_eq]
  simp

theorem chat_record_none {data : Json} (h : data.get "error" = none) :
    (chat_stream_record data).2 = none := by
  simp [chat_stream_record, h]

theorem chat_record_err {data : Json} {e : String}
    (h : data.get "error" = some (Json.str e)) :
    (chat_stream_record data).2 = some ("Ollama error: " ++ e) := by
  simp [chat_stream_record, h, Json.as_str]

theorem pull_record_none {modelName : String} {data : Json}
    (h : data.get "error" = none) :
    (pull_record modelName data).2 = none := by
  simp [pull_record, h]

theorem pull_record_err {modelName : String} {data : Json} {e : String}
    (h : data.get "error" = some (Json.str e)) :
    (pull_record modelName data).2 = some ("Ollama error: " ++ e) := by
  simp [pull_record, h, Json.as_str]

/-- C3: in ollama_chat_stream and download_ollama_model, when the decoded
record sequence contains a record carrying an error field with a
server-reported message (and no earlier record carries an error field), the
call returns that error immediately: the result is the error built from the
message of that first error record, and the emitted events come only from
the records up to and including it — no later record is processed,
regardless of how the bytes were chunked or of bytes still buffered. -/
theorem claim_C3 (parse : List Char → Option Json) (chunks : List (List Char))
    (modelName : String) (pre : List Json) (r : Json) (post : List Json)
    (e : String)
    (hsplit : decodedRecords parse chunks = pre ++ r :: post)
    (hpre : ∀ x ∈ pre, x.get "error" = none)
    (herr : r.get "error" = some (Json.str e)) :
    ollama_chat_stream_loop parse chunks =
      ((pre.map (fun x => (chat_stream_record x).1)).flatten ++
        (chat_stream_record r).1,
       Except.error ("Ollama error: " ++ e)) ∧
    download_ollama_model_loop modelName parse chunks =
      ((pre.map (fun x => (pull_record modelName x).1)).flatten ++
        (pull_record modelName r).1,
       Except.error ("Ollama error: " ++ e)) := by
  constructor
  · rw [ollama_chat_stream_loop]
    rw [ndjsonChunks_nil_buf, hsplit,
      processRecs_first_err _ pre r post _
        (fun x hx => chat_record_none (hpre x hx)) (chat_record_err herr)]
  · rw [download_ollama_model_loop]
    rw [ndjsonChunks_nil_buf, hsplit,
      processRecs_first_err _ pre r post _
        (fun x hx => pull_record_none (hpre x hx)) (pull_record_err herr)]

/-- A newline-terminated line is extracted whole by the drain loop. -/
theorem drain_line_append {l : List Char} (hl : '\n' ∉ l) (rest : List Char) :
    drain (l ++ '\n' :: rest) = (l :: (drain rest).1, (drain rest).2) := by
  induction l with
  | nil => simp [drain]
  | cons c cs ih =>
    have hc : c ≠ '\n' := fun h => hl (h ▸ List.mem_cons_self c cs)
    have hcs : '\n' ∉ cs := fun h => hl (List.mem_cons_of_mem c h)
    simp [drain, hc, ih hcs]

/-- A stream of newline-terminated lines drains to exactly those lines. -/
theorem drain_terminated (lines : List (List Char))
    (h : ∀ l ∈ lines, '\n' ∉ l) :
    drain ((lines.map (fun l => l ++ ['\n'])).flatten) = (lines, []) := by
  induction lines with
  | nil => simp [drain]
  | cons l ls ih =>
    have h1 : '\n' ∉ l := h l (List.mem_cons_self l ls)
    have hls := ih (fun x hx => h x (List.mem_cons_of_mem l hx))
    rw [List.map_cons, List.flatten_cons, List.append_assoc]
    rw [show (['\n'] ++ (ls.map (fun l => l ++ ['\n'])).flatten)
        = '\n' :: (ls.map (fun l => l ++ ['\n'])).flatten from rfl]
    rw [drain_line_append h1, hls]

/-- C4: for an input stream mixing valid JSON lines, malformed lines and
blank lines, the decoder emits exactly the records parsed from the valid
lines, in original relative order; blank lines are discarded and a line
that fails to parse is skipped without terminating the stream — and, when
no decoded record carries an error field, without terminating the call:
both streaming calls still complete successfully. -/
theorem claim_C4 (parse : List Char → Option Json) (modelName : String)
    (lines : List (List Char))
    (hnl : ∀ l ∈ lines, '\n' ∉ l)
    (hok : ∀ r ∈ decodedRecords parse [(lines.map (fun l => l ++ ['\n'])).flatten],
      r.get "error" = none) :
    decodedRecords parse [(lines.map (fun l => l ++ ['\n'])).flatten] =
      lines.filterMap (fun l => if isBlank l then none else parse l) ∧
    (ollama_chat_stream_loop parse
      [(lines.map (fun l => l ++ ['\n'])).flatten]).2 = Except.ok () ∧
    (download_ollama_model_loop modelName parse
      [(lines.map (fun l => l ++ ['\n'])).flatten]).2 = Except.ok () := by
  have hd : decodedRecords parse [(lines.map (fun l => l ++ ['\n'])).flatten] =
      lines.filterMap (fun l => if isBlank l then none else parse l) := by
    rw [decodedRecords_eq]
    simp only [List.flatten_cons, List.flatten_nil, List.append_nil]
    rw [drain_terminated lines hnl]
    rfl
  refine ⟨hd, ?_, ?_⟩
  · rw [ollama_chat_stream_loop]
    rw [ndjsonChunks_nil_buf,
      processRecs_all_ok _ _ (fun r hr => chat_record_none (hok r hr))]
  · rw [download_ollama_model_loop]
    rw [ndjsonChunks_nil_buf,
      processRecs_all_ok _ _ (fun r hr => pull_record_none (hok r hr))]

/-- C9: in ollama_chat_stream, the content chunk of a record is emitted
before the error check runs: for a record carrying both a string
message.content and an error field, the loop both emits the StreamChunk of
that record and then fails the call with that record's error. -/
theorem claim_C9 (parse : List Char → Option Json) (line : List Char)
    (data : Json) (c : String)
    (hnb : isBlank line = false) (hnl : '\n' ∉ line)
    (hp : parse line = some data)
    (hc : chatContent data = some c)
    (he : (data.get "error").isSome = true) :
    ollama_chat_stream_loop parse [line ++ ['\n']] =
      ([⟨c, chatDone data⟩],
       Except.error ("Ollama error: " ++
         (((data.get "error").bind Json.as_str).getD "Unknown error"))) := by
  have hrec : decodedRecords parse [line ++ ['\n']] = [data] := by
    rw [decodedRecords_eq]
    simp only [List.flatten_cons, List.flatten_nil, List.append_nil]
    rw [show line ++ ['\n'] = line ++ '\n' :: ([] : List Char) from rfl,
      drain_line_append hnl]
    simp [drain, lineRecord, hnb, hp]
  rw [ollama_chat_stream_loop]
  rw [ndjsonChunks_nil_buf, hrec]
  simp [processRecs, chat_stream_record, he, hc]

/-- C10: in ollama_chat_stream a chunk is emitted only for a record with a
string message.content, and the done flag is read only in that branch; so
for a stream without error fields in which every record whose done flag is
true lacks message.content, the call completes successfully and no emitted
chunk carries done = true. -/
theorem claim_C10 (parse : List Char → Option Json) (chunks : List (List Char))
    (hnoerr : ∀ r ∈ decodedRecords parse chunks, r.get "error" = none)
    (hdone : ∀ r ∈ decodedRecords parse chunks,
      chatDone r = true → chatContent r = none) :
    (ollama_chat_stream_loop parse chunks).2 = Except.ok () ∧
    ∀ ev ∈ (ollama_chat_stream_loop parse chunks).1, ev.done = false := by
  have hall := processRecs_all_ok chat_stream_record (decodedRecords parse chunks)
    (fun r hr => chat_record_none (hnoerr r hr))
  constructor
  · rw [ollama_chat_stream_loop]
    rw [ndjsonChunks_nil_buf, hall]
  · intro ev hev
    rw [ollama_chat_stream_loop] at hev
    rw [ndjsonChunks_nil_buf, hall] at hev
    simp only [List.mem_flatten, List.mem_map] at hev
    obtain ⟨l, ⟨r, hr, hl⟩, hevl⟩ := hev
    subst hl
    cases hcon : chatContent r with
    | none => simp [chat_stream_record, hcon] at hevl
    | some c =>
      simp [chat_stream_record, hcon] at hevl
      subst hevl
      by_cases hd : chatDone r = true
      · exact absurd (hdone r hr hd) (by simp [hcon])
      · simpa using hd

/-! Concrete fixtures used by the witnesses below. -/

/-- A record with a content chunk and done=false. -/
def jsonHi : Json :=
  Json.obj [("message", Json.obj [("content", Json.str "hi")]),
            ("done", Json.bool false)]

/-- A record carrying a server-reported error message. -/
def jsonBoom : Json := Json.obj [("error", Json.str "boom")]

/-- A content-bearing record occurring after the error record. -/
def jsonZ : Json := Json.obj [("message", Json.obj [("content", Json.str "zz")])]

/-- A terminal record with done=true and no message.content. -/
def jsonDoneOnly : Json := Json.obj [("done", Json.bool true)]

/-- A record carrying both message.content and an error field. -/
def jsonBoth : Json :=
  Json.obj [("message", Json.obj [("content", Json.str "part")]),
            ("error", Json.str "bad")]

/-- A concrete stand-in for serde_json::from_str over a tiny line language. -/
def parseFix : List Char → Option Json := fun l =>
  if l = ['A'] then some jsonHi
  else if l = ['E'] then some jsonBoom
  else if l = ['Z'] then some jsonZ
  else if l = ['D'] then some jsonDoneOnly
  else if l = ['B'] then some jsonBoth
  else none

theorem claim_C3_witness :
    ollama_chat_stream_loop parseFix [['A', '\n', 'E', '\n', 'Z', '\n']] =
      (([jsonHi].map (fun x => (chat_stream_record x).1)).flatten ++
        (chat_stream_record jsonBoom).1,
       Except.error ("Ollama error: " ++ "boom")) ∧
    download_ollama_model_loop "m" parseFix [['A', '\n', 'E', '\n', 'Z', '\n']] =
      (([jsonHi].map (fun x => (pull_record "m" x).1)).flatten ++
        (pull_record "m" jsonBoom).1,
       Except.error ("Ollama error: " ++ "boom")) :=
  claim_C3 parseFix [['A', '\n', 'E', '\n', 'Z', '\n']] "m"
    [jsonHi] jsonBoom [jsonZ] "boom"
    (by rw [decodedRecords_eq]; rfl)
    (by intro x hx; rw [List.mem_singleton] at hx; subst hx; rfl)
    rfl

theorem claim_C4_witness :
    decodedRecords parseFix
        [(([['A'], [' '], ['X'], ['Z']] : List (List Char)).map
          (fun l => l ++ ['\n'])).flatten] =
      ([['A'], [' '], ['X'], ['Z']] : List (List Char)).filterMap
        (fun l => if isBlank l then none else parseFix l) ∧
    (ollama_chat_stream_loop parseFix
      [(([['A'], [' '], ['X'], ['Z']] : List (List Char)).map
        (fun l => l ++ ['\n'])).flatten]).2 = Except.ok () ∧
    (download_ollama_model_loop "m" parseFix
      [(([['A'], [' '], ['X'], ['Z']] : List (List Char)).map
        (fun l => l ++ ['\n'])).flatten]).2 = Except.ok () :=
  claim_C4 parseFix "m" [['A'], [' '], ['X'], ['Z']]
    (by decide)
    (by
      intro r hr
      have hrec : decodedRecords parseFix
          [(([['A'], [' '], ['X'], ['Z']] : List (List Char)).map
            (fun l => l ++ ['\n'])).flatten] = [jsonHi, jsonZ] := by
        rw [decodedRecords_eq]; rfl
      rw [hrec, List.mem_cons, List.mem_singleton] at hr
      rcases hr with h | h
      · subst h; rfl
      · subst h; rfl)

theorem claim_C9_witness :
    ollama_chat_stream_loop parseFix [['B'] ++ ['\n']] =
      ([⟨"part", chatDone jsonBoth⟩],
       Except.error ("Ollama error: " ++
         (((jsonBoth.get "error").bind Json.as_str).getD "Unknown error"))) :=
  claim_C9 parseFix ['B'] jsonBoth "part" rfl (by decide) rfl rfl rfl

theorem claim_C10_witness :
    (ollama_chat_stream_loop parseFix [['A', '\n', 'D', '\n']]).2 = Except.ok () ∧
    ∀ ev ∈ (ollama_chat_stream_loop parseFix [['A', '\n', 'D', '\n']]).1,
      ev.done = false :=
  claim_C10 parseFix [['A', '\n', 'D', '\n']]
    (by
      intro r hr
      have hrec : decodedRecords parseFix [['A', '\n', 'D', '\n']] =
          [jsonHi, jsonDoneOnly] := by
        rw [decodedRecords_eq]; rfl
      rw [hrec, List.mem_cons, List.mem_singleton] at hr
      rcases hr with h | h
      · subst h; rfl
      · subst h; rfl)
    (by
      intro r hr
      have hrec : decodedRecords parseFix [['A', '\n', 'D', '\n']] =
          [jsonHi, jsonDoneOnly] := by
        rw [decodedRecords_eq]; rfl
      rw [hrec, List.mem_cons, List.mem_singleton] at hr
      rcases hr with h | h
      · subst h; intro hd; exact absurd hd (by decide)
      · subst h; intro hd; rfl)

/-! ## check_ollama_status (lines 26-116) -/

/-- The status struct returned by check_ollama_status. -/
structure OllamaStatus where
  running : Bool
  models_available : Bool
  models : List String
deriving DecidableEq

/-- Outcome of the GET /api/version call: a transport error, or a response
together with response.status().is_success(). -/
inductive VersionOutcome where
  | err : VersionOutcome
  | resp (success : Bool) : VersionOutcome

/-- Outcome of the GET /api/tags call: a transport error, or a response
together with its status success flag and the result of parsing its body
as JSON (consulted only when the status is a success). -/
inductive TagsOutcome where
  | err : TagsOutcome
  | resp (success : Bool) (body : Except Unit Json) : TagsOutcome

/-- Model-name extraction of check_ollama_status:
data["models"].as_array().map(|arr| arr.iter()
  .filter_map(|m| m["name"].as_str().map(String::from)).collect())
  .unwrap_or_default(). -/
def extractModels (data : Json) : List String :=
  match (data.index "models").as_array with
  | some arr => arr.filterMap (fun m => (m.index "name").as_str)
  | none => []

/-- check_ollama_status as a function of the outcomes of its two HTTP
calls, mirroring the nested match/if structure of the source. -/
def check_ollama_status (v : VersionOutcome) (t : TagsOutcome) :
    Except String OllamaStatus :=
  match v with
  | VersionOutcome.resp success =>
    if success then
      match t with
      | TagsOutcome.resp tagsSuccess body =>
        if tagsSuccess then
          match body with
          | Except.ok data =>
            let models := extractModels data
            let has_models := !models.isEmpty
            Except.ok ⟨true, has_models, models⟩
          | Except.error _ => Except.ok ⟨true, false, []⟩
        else Except.ok ⟨true, false, []⟩
      | TagsOutcome.err => Except.ok ⟨true, false, []⟩
    else Except.ok ⟨false, false, []⟩
  | VersionOutcome.err => Except.ok ⟨false, false, []⟩

/-- C2: the full case analysis of check_ollama_status over the outcomes of
its two HTTP calls: version call failed or non-success → all-false status;
version success but tags call failed, non-success, or unparsable →
running:true, modelsAvailable:false, models:[]; otherwise modelsAvailable
is true iff the extracted model list is non-empty; and no outcome ever
propagates an error to the caller. -/
theorem claim_C2 :
    (∀ t, check_ollama_status VersionOutcome.err t =
      Except.ok ⟨false, false, []⟩) ∧
    (∀ t, check_ollama_status (VersionOutcome.resp false) t =
      Except.ok ⟨false, false, []⟩) ∧
    (check_ollama_status (VersionOutcome.resp true) TagsOutcome.err =
      Except.ok ⟨true, false, []⟩) ∧
    (∀ body, check_ollama_status (VersionOutcome.resp true)
      (TagsOutcome.resp false body) = Except.ok ⟨true, false, []⟩) ∧
    (∀ e, check_ollama_status (VersionOutcome.resp true)
      (TagsOutcome.resp true (Except.error e)) = Except.ok ⟨true, false, []⟩) ∧
    (∀ data, check_ollama_status (VersionOutcome.resp true)
        (TagsOutcome.resp true (Except.ok data)) =
      Except.ok ⟨true, !(extractModels data).isEmpty, extractModels data⟩) ∧
    (∀ v t, ∃ st, check_ollama_status v t = Except.ok st) := by
  refine ⟨fun t => rfl, fun t => rfl, rfl, fun body => rfl, fun e => rfl,
    fun data => rfl, fun v t => ?_⟩
  cases v with
  | err => exact ⟨_, rfl⟩
  | resp success =>
    cases success with
    | false => exact ⟨_, rfl⟩
    | true =>
      cases t with
      | err => exact ⟨_, rfl⟩
      | resp tagsSuccess body =>
        cases tagsSuccess with
        | false => exact ⟨_, rfl⟩
        | true =>
          cases body with
          | error e => exact ⟨_, rfl⟩
          | ok data => exact ⟨_, rfl⟩

/-! ## Chat request bodies (lines 572-589 and 658-677) -/

/-- ChatMessage as serialized into the request body. -/
structure ChatMessage where
  role : String
  content : String

def chatMessageJson (m : ChatMessage) : Json :=
  Json.obj [("role", Json.str m.role), ("content", Json.str m.content)]

/-- The JSON body sent by ollama_chat (non-streaming).  Float literals are
idealised as exact rationals; no arithmetic is performed on them. -/
def ollama_chat_body (model : String) (messages : List ChatMessage)
    (temperature : Option Rat) (max_tokens : Option Nat)
    (top_p : Option Rat) : Json :=
  Json.obj [
    ("model", Json.str model),
    ("messages", Json.arr (messages.map chatMessageJson)),
    ("stream", Json.bool false),
    ("options", Json.obj [
      ("temperature", Json.num (temperature.getD 0.2)),
      ("num_predict", Json.num (max_tokens.getD 4096 : Nat)),
      ("top_p", Json.num (top_p.getD 0.9)),
      ("repeat_penalty", Json.num 1.1),
      ("repeat_last_n", Json.num 64)])]

/-- The JSON body sent by ollama_chat_stream: the streaming flag is set and
the options additionally pin num_ctx. -/
def ollama_chat_stream_body (model : String) (messages : List ChatMessage)
    (temperature : Option Rat) (max_tokens : Option Nat)
    (top_p : Option Rat) : Json :=
  Json.obj [
    ("model", Json.str model),
    ("messages", Json.arr (messages.map chatMessageJson)),
    ("stream", Json.bool true),
    ("options", Json.obj [
      ("temperature", Json.num (temperature.getD 0.2)),
      ("num_predict", Json.num (max_tokens.getD 4096 : Nat)),
      ("num_ctx", Json.num 16384),
      ("top_p", Json.num (top_p.getD 0.9)),
      ("repeat_penalty", Json.num 1.1),
      ("repeat_last_n", Json.num 64)])]

/-- C6: when all optional option fields are absent, the options object of
the request body of both ollama_chat and ollama_chat_stream carries exactly
the defaults temperature=0.2, top_p=0.9, num_predict=4096,
repeat_penalty=1.1, repeat_last_n=64; and in general each optional field is
substituted field-by-field, the present value when given and the default
when absent. -/
theorem claim_C6 (model : String) (messages : List ChatMessage)
    (temperature : Option Rat) (max_tokens : Option Nat) (top_p : Option Rat) :
    (((ollama_chat_body model messages none none none).index "options").index
        "temperature" = Json.num 0.2 ∧
     ((ollama_chat_body model messages none none none).index "options").index
        "top_p" = Json.num 0.9 ∧
     ((ollama_chat_body model messages none none none).index "options").index
        "num_predict" = Json.num 4096 ∧
     ((ollama_chat_body model messages none none none).index "options").index
        "repeat_penalty" = Json.num 1.1 ∧
     ((ollama_chat_body model messages none none none).index "options").index
        "repeat_last_n" = Json.num 64) ∧
    (((ollama_chat_stream_body model messages none none none).index
        "options").index "temperature" = Json.num 0.2 ∧
     ((ollama_chat_stream_body model messages none none none).index
        "options").index "top_p" = Json.num 0.9 ∧
     ((ollama_chat_stream_body model messages none none none).index
        "options").index "num_predict" = Json.num 4096 ∧
     ((ollama_chat_stream_body model messages none none none).index
        "options").index "repeat_penalty" = Json.num 1.1 ∧
     ((ollama_chat_stream_body model messages none none none).index
        "options").index "repeat_last_n" = Json.num 64) ∧
    (((ollama_chat_body model messages temperature max_tokens top_p).index
        "options").index "temperature" = Json.num (temperature.getD 0.2) ∧
     ((ollama_chat_body model messages temperature max_tokens top_p).index
        "options").index "num_predict" = Json.num (max_tokens.getD 4096 : Nat) ∧
     ((ollama_chat_body model messages temperature max_tokens top_p).index
        "options").index "top_p" = Json.num (top_p.getD 0.9)) ∧
    (((ollama_chat_stream_body model messages temperature max_tokens
        top_p).index "options").index "temperature"
        = Json.num (temperature.getD 0.2) ∧
     ((ollama_chat_stream_body model messages temperature max_tokens
        top_p).index "options").index "num_predict"
        = Json.num (max_tokens.getD 4096 : Nat) ∧
     ((ollama_chat_stream_body model messages temperature max_tokens
        top_p).index "options").index "top_p"
        = Json.num (top_p.getD 0.9)) := by
  refine ⟨⟨rfl, rfl, rfl, rfl, rfl⟩, ⟨rfl, rfl, rfl, rfl, rfl⟩,
    ⟨rfl, rfl, rfl⟩, ⟨rfl, rfl, rfl⟩⟩

/-! ## start_ollama_service, Windows branch (lines 184-286) -/

/-- Environment of the Windows launcher: the two environment variables used
to build the well-known paths, which paths exist on disk, which spawn
attempts succeed, and the stdout of `where ollama` when that command ran
with a success status and UTF-8 output (none otherwise).  USERPROFILE is
read by the code but only logged, so it is not modelled. -/
structure WinEnv where
  localappdata : String
  programfiles : String
  pathExists : String → Bool
  spawnOk : String → Bool
  whereOutput : Option String

/-- The ordered list of well-known installation paths probed by Method 1:
the PrivatePDF-managed install first, then the official installer path,
then the system-wide path. -/
def ollama_exe_paths (env : WinEnv) : List String :=
  [env.localappdata ++ "\\PrivatePDF\\ollama\\ollama.exe",
   env.localappdata ++ "\\Programs\\Ollama\\ollama.exe",
   env.programfiles ++ "\\Ollama\\ollama.exe"]

/-- Method 2 candidate: the trimmed `where ollama` output when it is
non-empty and its lowercase form ends with "ollama.exe". -/
def whereCandidate (env : WinEnv) : Option String :=
  match env.whereOutput with
  | some out =>
    let ollama_path := out.trim
    if ollama_path ≠ "" ∧ ollama_path.toLower.endsWith "ollama.exe"
    then some ollama_path else none
  | none => none

/-- Success message returned by every successful Windows spawn branch. -/
def startMsg : String :=
  "Ollama server starting. Please wait a few seconds for it to initialize."

/-- The aggregated error returned when every method has failed, carrying
install instructions. -/
def notFoundMsg : String :=
  "Could not find or start Ollama. Please:\n1. Install Ollama from https://ollama.com/download/windows\n2. Or open Command Prompt and run: ollama serve\n3. Then click \x27Check Status\x27 in PrivatePDF"

/-- Method 1 loop: walk the well-known paths in order; a missing path is
skipped without a spawn attempt; an existing path is spawned, returning on
success and continuing on spawn failure.  Returns the spawn attempts made,
in order, and the successfully spawned path if any. -/
def tryPaths (env : WinEnv) : List String → List String × Option String
  | [] => ([], none)
  | p :: rest =>
    if env.pathExists p then
      if env.spawnOk p then ([p], some p)
      else
        let r := tryPaths env rest
        (p :: r.1, r.2)
    else tryPaths env rest

/-- The Windows branch of start_ollama_service: Method 1 (well-known
paths), then Method 2 (PATH lookup via `where ollama`), then Method 3 (the
bare "ollama" command); the first successful spawn returns the success
message, and only full exhaustion returns the NotFound error.  The first
component records every spawn attempt in order. -/
def start_ollama_service_windows (env : WinEnv) :
    List String × Except String String :=
  let m1 := tryPaths env (ollama_exe_paths env)
  match m1.2 with
  | some _ => (m1.1, Except.ok startMsg)
  | none =>
    match whereCandidate env with
    | some p =>
      if env.spawnOk p then (m1.1 ++ [p], Except.ok startMsg)
      else if env.spawnOk "ollama" then
        (m1.1 ++ [p, "ollama"], Except.ok startMsg)
      else (m1.1 ++ [p, "ollama"], Except.error notFoundMsg)
    | none =>
      if env.spawnOk "ollama" then (m1.1 ++ ["ollama"], Except.ok startMsg)
      else (m1.1 ++ ["ollama"], Except.error notFoundMsg)

/-- The full strategy list in fixed priority order: existing well-known
paths, then the PATH-lookup candidate, then the bare command. -/
def winStrategies (env : WinEnv) : List String :=
  (ollama_exe_paths env).filter env.pathExists ++
    (match whereCandidate env with
     | some p => [p]
     | none => []) ++ ["ollama"]

/-- Reference strategy runner: try each candidate in order, stop at the
first success, record the attempts. -/
def runStrategies (ok : String → Bool) : List String → List String × Option String
  | [] => ([], none)
  | s :: rest =>
    if ok s then ([s], some s)
    else
      let r := runStrategies ok rest
      (s :: r.1, r.2)

theorem tryPaths_eq_runStrategies (env : WinEnv) (l : List String) :
    tryPaths env l = runStrategies env.spawnOk (l.filter env.pathExists) := by
  induction l with
  | nil => simp [tryPaths, runStrategies]
  | cons p rest ih =>
    by_cases hp : env.pathExists p
    · by_cases hs : env.spawnOk p
      · simp [tryPaths, runStrategies, hp, hs, List.filter_cons]
      · simp [tryPaths, runStrategies, hp, hs, List.filter_cons, ih]
    · simp [tryPaths, List.filter_cons, hp, ih]

theorem runStrategies_append (ok : String → Bool) (l1 l2 : List String) :
    runStrategies ok (l1 ++ l2) =
      (match (runStrategies ok l1).2 with
       | some s => ((runStrategies ok l1).1, some s)
       | none => ((runStrategies ok l1).1 ++ (runStrategies ok l2).1,
                  (runStrategies ok l2).2)) := by
  induction l1 with
  | nil => simp [runStrategies]
  | cons s rest ih =>
    by_cases hs : ok s
    · simp [runStrategies, hs]
    · cases hr : (runStrategies ok rest).2 with
      | some t => simp [runStrategies, hs, ih, hr]
      | none => simp [runStrategies, hs, ih, hr]

theorem runStrategies_none_iff (ok : String → Bool) (l : List String) :
    (runStrategies ok l).2 = none ↔ ∀ s ∈ l, ok s = false := by
  induction l with
  | nil => simp [runStrategies]
  | cons s rest ih =>
    by_cases hs : ok s
    · simp [runStrategies, hs]
    · simp [runStrategies, hs, ih, Bool.not_eq_true _ ▸ hs]

/-- C7: the Windows launcher is exactly the ordered strategy runner over
well-known install paths, then the PATH lookup, then the bare command: the
first successful spawn yields the success result with no later strategy
attempted, and the call returns the single NotFound error carrying install
instructions precisely when every strategy in the list fails. -/
theorem claim_C7 (env : WinEnv) :
    start_ollama_service_windows env =
      ((runStrategies env.spawnOk (winStrategies env)).1,
       match (runStrategies env.spawnOk (winStrategies env)).2 with
       | some _ => Except.ok startMsg
       | none => Except.error notFoundMsg) ∧
    ((start_ollama_service_windows env).2 = Except.error notFoundMsg ↔
      ∀ s ∈ winStrategies env, env.spawnOk s = false) := by
  have hmain : start_ollama_service_windows env =
      ((runStrategies env.spawnOk (winStrategies env)).1,
       match (runStrategies env.spawnOk (winStrategies env)).2 with
       | some _ => Except.ok startMsg
       | none => Except.error notFoundMsg) := by
    rw [start_ollama_service_windows, winStrategies, runStrategies_append,
      runStrategies_append, tryPaths_eq_runStrategies]
    cases hm1 : (runStrategies env.spawnOk
        ((ollama_exe_paths env).filter env.pathExists)).2 with
    | some p => simp [hm1]
    | none =>
      cases hw : whereCandidate env with
      | some p =>
        by_cases hs : env.spawnOk p
        · simp [hm1, hw, hs, runStrategies]
        · by_cases hb : env.spawnOk "ollama"
          · simp [hm1, hw, hs, hb, runStrategies]
          · simp [hm1, hw, hs, hb, runStrategies]
      | none =>
        by_cases hb : env.spawnOk "ollama"
        · simp [hm1, hw, hb, runStrategies]
        · simp [hm1, hw, hb, runStrategies]
  refine ⟨hmain, ?_⟩
  rw [hmain, ← runStrategies_none_iff env.spawnOk (winStrategies env)]
  cases hr : (runStrategies env.spawnOk (winStrategies env)).2 with
  | some p => simp [hr]
  | none => simp [hr]

/-! ## download_ollama_zip (lines 734-893)

Paths are modelled as lists of plain name components.  A ZIP entry's stored
name is modelled pre-split into path components, as std::path::Path::
components yields them, together with whether the name carries a RootDir or
Prefix component and whether it ends with a slash (directory entry). -/

/-- One component of a stored entry name. -/
inductive PathComp where
  | parent : PathComp
  | cur : PathComp
  | normal (s : String) : PathComp
deriving DecidableEq

/-- A ZIP archive entry as seen by the extraction loop. -/
structure ZipEntry where
  absolute : Bool
  comps : List PathComp
  isDir : Bool
deriving DecidableEq

/-- The depth counter of zip::ZipFile::enclosed_name: ParentDir decrements
with checked_sub (None on underflow), Normal increments, CurDir is
skipped. -/
def enclosedDepth : Nat → List PathComp → Option Nat
  | d, [] => some d
  | d, PathComp.parent :: rest =>
    match d with
    | 0 => none
    | Nat.succ d2 => enclosedDepth d2 rest
  | d, PathComp.cur :: rest => enclosedDepth d rest
  | d, PathComp.normal _ :: rest => enclosedDepth (d + 1) rest

/-- zip::ZipFile::enclosed_name (the path-traversal guard of the zip crate
used at line 845): reject names with a RootDir/Prefix component and names
whose ParentDir components would escape, otherwise return the components
unchanged. -/
def enclosed_name (e : ZipEntry) : Option (List PathComp) :=
  if e.absolute then none
  else
    match enclosedDepth 0 e.comps with
    | some _ => some e.comps
    | none => none

/-- OS-level resolution of a relative component path against a base
directory given as plain name components. -/
def resolveComps (base : List String) : List PathComp → List String
  | [] => base
  | PathComp.parent :: rest => resolveComps base.dropLast rest
  | PathComp.cur :: rest => resolveComps base rest
  | PathComp.normal s :: rest => resolveComps (base ++ [s]) rest

/-- Filesystem state: the sets of existing directories and files, as
resolved paths. -/
structure FS where
  dirs : List (List String)
  files : List (List String)
deriving DecidableEq

/-- std::fs::create_dir_all on the syntactic path base/comps: every
syntactic ancestor (the prefixes of base, then base extended by each prefix
of comps), as resolved by the OS, is created when missing. -/
def create_dir_all (fs : FS) (base : List String) (comps : List PathComp) : FS :=
  { fs with dirs := fs.dirs ++
      ((base.inits ++ comps.inits.map (resolveComps base)).filter
        (fun r => !(fs.dirs.contains r))) }

/-- One iteration of the extraction loop: skip the entry when enclosed_name
rejects it; for a directory entry create the directory tree; for a file
entry create the syntactic parent directories and then the file.  File
creation is overapproximated as always adding the resolved path, which is
conservative for the no-escape property. -/
def extractEntry (install : List String) (fs : FS) (e : ZipEntry) : FS :=
  match enclosed_name e with
  | none => fs
  | some comps =>
    if e.isDir then
      create_dir_all fs install comps
    else
      let fs1 :=
        match comps with
        | [] => create_dir_all fs install.dropLast []
        | _ :: _ => create_dir_all fs install comps.dropLast
      { fs1 with files := fs1.files ++ [resolveComps install comps] }

/-- The extraction loop over all archive entries. -/
def extract_entries (install : List String) : FS → List ZipEntry → FS
  | fs, [] => fs
  | fs, e :: rest => extract_entries install (extractEntry install fs e) rest

/-- A prefix of a depth-accepted component list is depth-accepted. -/
theorem enclosedDepth_take {comps : List PathComp} {d dend : Nat}
    (h : enclosedDepth d comps = some dend) :
    ∀ n, ∃ d2, enclosedDepth d (comps.take n) = some d2 := by
  induction comps generalizing d dend with
  | nil => intro n; exact ⟨d, by simp [enclosedDepth]⟩
  | cons c rest ih =>
    intro n
    cases n with
    | zero => exact ⟨d, by simp [enclosedDepth]⟩
    | succ m =>
      cases c with
      | parent =>
        cases d with
        | zero => simp [enclosedDepth] at h
        | succ d2 =>
          obtain ⟨d3, h3⟩ := ih (d := d2) h m
          exact ⟨d3, by simpa [enclosedDepth] using h3⟩
      | cur =>
        obtain ⟨d3, h3⟩ := ih (d := d) h m
        exact ⟨d3, by simpa [enclosedDepth] using h3⟩
      | normal s =>
        obtain ⟨d3, h3⟩ := ih (d := d + 1) h m
        exact ⟨d3, by simpa [enclosedDepth] using h3⟩

/-- Resolving a component list that passes the depth check starting at the
length of the slack never escapes the install directory. -/
theorem resolve_within (comps : List PathComp) (dend : Nat)
    (install : List String) :
    ∀ (extra : List String), enclosedDepth extra.length comps = some dend →
      install <+: resolveComps (install ++ extra) comps := by
  induction comps with
  | nil =>
    intro extra _
    exact List.prefix_append install extra
  | cons c rest ih =>
    intro extra h
    cases c with
    | parent =>
      cases hx : extra with
      | nil => subst hx; simp [enclosedDepth] at h
      | cons y ys =>
        subst hx
        simp only [List.length_cons, enclosedDepth] at h
        have hdrop : ((install ++ y :: ys).dropLast)
            = install ++ (y :: ys).dropLast := List.dropLast_append_cons
        have hlen : (y :: ys).dropLast.length = ys.length := by
          simp [List.length_dropLast]
        rw [resolveComps, hdrop]
        exact ih (y :: ys).dropLast (by rw [hlen]; exact h)
    | cur =>
      simp only [enclosedDepth] at h
      rw [resolveComps]
      exact ih extra h
    | normal s =>
      simp only [enclosedDepth] at h
      rw [resolveComps, List.append_assoc]
      exact ih (extra ++ [s]) (by simpa using h)

/-- An accepted entry name resolves to a path enclosed by the install
directory. -/
theorem enclosed_resolves_within {e : ZipEntry} {comps : List PathComp}
    (install : List String) (h : enclosed_name e = some comps) :
    install <+: resolveComps install comps := by
  rw [enclosed_name] at h
  by_cases ha : e.absolute
  · simp [ha] at h
  · simp only [ha, if_false, Bool.false_eq_true] at h
    cases hd : enclosedDepth 0 e.comps with
    | none => rw [hd] at h; cases h
    | some dend =>
      rw [hd] at h
      cases h
      have hw := resolve_within e.comps dend install []
        (by simpa using hd)
      simpa using hw

/-- Any prefix of a depth-accepted component list resolves within the
install directory. -/
theorem prefix_resolves_within {comps q : List PathComp} {dend : Nat}
    (install : List String) (hd : enclosedDepth 0 comps = some dend)
    (hq : q <+: comps) :
    install <+: resolveComps install q := by
  obtain ⟨n, rfl⟩ : ∃ n, q = comps.take n :=
    ⟨q.length, List.prefix_iff_eq_take.mp hq⟩
  obtain ⟨d2, h2⟩ := enclosedDepth_take hd n
  have hw := resolve_within (comps.take n) d2 install []
    (by simpa using h2)
  simpa using hw

theorem create_dir_all_mem {fs : FS} {base : List String}
    {comps : List PathComp} {p : List String}
    (h : p ∈ (create_dir_all fs base comps).dirs) :
    p ∈ fs.dirs ∨ p <+: base ∨ ∃ q, q <+: comps ∧ p = resolveComps base q := by
  simp only [create_dir_all, List.mem_append, List.mem_filter] at h
  rcases h with h | ⟨h, _⟩
  · exact Or.inl h
  · rcases h with h | h
    · exact Or.inr (Or.inl (List.mem_inits p base |>.mp h))
    · simp only [List.mem_map, List.mem_inits] at h
      obtain ⟨q, hq, hp⟩ := h
      exact Or.inr (Or.inr ⟨q, hq, hp.symm⟩)

theorem create_dir_all_files (fs : FS) (base : List String)
    (comps : List PathComp) : (create_dir_all fs base comps).files = fs.files :=
  rfl

theorem create_dir_all_dirs_sub (fs : FS) (base : List String)
    (comps : List PathComp) : fs.dirs ⊆ (create_dir_all fs base comps).dirs := by
  intro p hp
  simp only [create_dir_all, List.mem_append]
  exact Or.inl hp

/-- Everything one loop iteration adds to the filesystem lies within the
install directory, provided the install directory and its ancestors
already exist. -/
theorem extractEntry_mem (install : List String) (fs : FS) (e : ZipEntry)
    (hfs : ∀ q, q <+: install → q ∈ fs.dirs) :
    (∀ p ∈ (extractEntry install fs e).dirs, p ∈ fs.dirs ∨ install <+: p) ∧
    (∀ p ∈ (extractEntry install fs e).files, p ∈ fs.files ∨ install <+: p) := by
  cases henc : enclosed_name e with
  | none =>
    constructor
    · intro p hp
      simp only [extractEntry, henc] at hp
      exact Or.inl hp
    · intro p hp
      simp only [extractEntry, henc] at hp
      exact Or.inl hp
  | some comps =>
    have hdend : ∃ dend, enclosedDepth 0 comps = some dend := by
      rw [enclosed_name] at henc
      by_cases ha : e.absolute
      · simp [ha] at henc
      · simp only [ha, if_false, Bool.false_eq_true] at henc
        cases hd : enclosedDepth 0 e.comps with
        | none => rw [hd] at henc; cases henc
        | some d => rw [hd] at henc; cases henc; exact ⟨d, hd⟩
    obtain ⟨dend, hdok⟩ := hdend
    cases hdir : e.isDir with
    | true =>
      constructor
      · intro p hp
        simp only [extractEntry, henc, hdir, if_true] at hp
        rcases create_dir_all_mem hp with h | h | ⟨q, hq, rfl⟩
        · exact Or.inl h
        · exact Or.inl (hfs p h)
        · exact Or.inr (prefix_resolves_within install hdok hq)
      · intro p hp
        simp only [extractEntry, henc, hdir, if_true] at hp
        exact Or.inl hp
    | false =>
      cases hcomps : comps with
      | nil =>
        subst hcomps
        constructor
        · intro p hp
          simp only [extractEntry, henc, hdir, Bool.false_eq_true, if_false] at hp
          rcases create_dir_all_mem hp with h | h | ⟨q, hq, rfl⟩
          · exact Or.inl h
          · exact Or.inl (hfs p (h.trans (List.dropLast_prefix install)))
          · have hqn : q = [] := List.prefix_nil.mp hq
            subst hqn
            exact Or.inl (hfs _ (by
              rw [show resolveComps install.dropLast [] = install.dropLast
                from rfl]
              exact List.dropLast_prefix install))
        · intro p hp
          simp only [extractEntry, henc, hdir, Bool.false_eq_true, if_false,
            create_dir_all, List.mem_append] at hp
          rcases hp with h | h
          · exact Or.inl h
          · rw [List.mem_singleton] at h
            subst h
            exact Or.inr ⟨[], List.append_nil _⟩
      | cons c cc =>
        subst hcomps
        constructor
        · intro p hp
          simp only [extractEntry, henc, hdir, Bool.false_eq_true, if_false] at hp
          rcases create_dir_all_mem hp with h | h | ⟨q, hq, rfl⟩
          · exact Or.inl h
          · exact Or.inl (hfs p h)
          · exact Or.inr (prefix_resolves_within install hdok
              (hq.trans (List.dropLast_prefix (c :: cc))))
        · intro p hp
          simp only [extractEntry, henc, hdir, Bool.false_eq_true, if_false,
            create_dir_all, List.mem_append] at hp
          rcases hp with h | h
          · exact Or.inl h
          · rw [List.mem_singleton] at h
            subst h
            exact Or.inr (prefix_resolves_within install hdok
              (List.prefix_refl (c :: cc)))

theorem extractEntry_dirs_sub (install : List String) (fs : FS) (e : ZipEntry) :
    fs.dirs ⊆ (extractEntry install fs e).dirs := by
  intro p hp
  cases henc : enclosed_name e with
  | none => simp only [extractEntry, henc]; exact hp
  | some comps =>
    cases hdir : e.isDir with
    | true =>
      simp only [extractEntry, henc, hdir, if_true]
      exact create_dir_all_dirs_sub fs install comps hp
    | false =>
      cases comps with
      | nil =>
        simp only [extractEntry, henc, hdir, Bool.false_eq_true, if_false]
        exact create_dir_all_dirs_sub fs install.dropLast [] hp
      | cons c cc =>
        simp only [extractEntry, henc, hdir, Bool.false_eq_true, if_false]
        exact create_dir_all_dirs_sub fs install (c :: cc).dropLast hp

theorem extractEntry_files_sub (install : List String) (fs : FS) (e : ZipEntry) :
    fs.files ⊆ (extractEntry install fs e).files := by
  intro p hp
  cases henc : enclosed_name e with
  | none => simp only [extractEntry, henc]; exact hp
  | some comps =>
    cases hdir : e.isDir with
    | true =>
      simp only [extractEntry, henc, hdir, if_true]
      exact hp
    | false =>
      cases comps with
      | nil =>
        simp only [extractEntry, henc, hdir, Bool.false_eq_true, if_false,
          create_dir_all, List.mem_append]
        exact Or.inl hp
      | cons c cc =>
        simp only [extractEntry, henc, hdir, Bool.false_eq_true, if_false,
          create_dir_all, List.mem_append]
        exact Or.inl hp

/-- Everything the whole extraction loop adds to the filesystem lies within
the install directory. -/
theorem extract_entries_mem (install : List String) :
    ∀ (entries : List ZipEntry) (fs : FS),
      (∀ q, q <+: install → q ∈ fs.dirs) →
      (∀ p ∈ (extract_entries install fs entries).dirs,
          p ∈ fs.dirs ∨ install <+: p) ∧
      (∀ p ∈ (extract_entries install fs entries).files,
          p ∈ fs.files ∨ install <+: p) := by
  intro entries
  induction entries with
  | nil =>
    intro fs _
    constructor
    · intro p hp
      simp only [extract_entries] at hp
      exact Or.inl hp
    · intro p hp
      simp only [extract_entries] at hp
      exact Or.inl hp
  | cons e rest ih =>
    intro fs hfs
    have hfs2 : ∀ q, q <+: install → q ∈ (extractEntry install fs e).dirs :=
      fun q hq => extractEntry_dirs_sub install fs e (hfs q hq)
    have hm := extractEntry_mem install fs e hfs
    have hr := ih (extractEntry install fs e) hfs2
    constructor
    · intro p hp
      simp only [extract_entries] at hp
      rcases hr.1 p hp with h | h
      · rcases hm.1 p h with h2 | h2
        · exact Or.inl h2
        · exact Or.inr h2
      · exact Or.inr h
    · intro p hp
      simp only [extract_entries] at hp
      rcases hr.2 p hp with h | h
      · rcases hm.2 p h with h2 | h2
        · exact Or.inl h2
        · exact Or.inr h2
      · exact Or.inr h

/-- C5: in the extraction loop of download_ollama_zip, every entry whose
stored name would resolve outside the installation directory is rejected
by the enclosed_name guard (an accepted entry always resolves to a path
enclosed by the install directory), and — assuming the install directory
and its ancestors exist, as the workflow creates them before the loop —
every directory or file the loop creates lies inside the installation
directory. -/
theorem claim_C5 (install : List String) (fs : FS) (entries : List ZipEntry)
    (hfs : ∀ q, q <+: install → q ∈ fs.dirs) :
    (∀ e ∈ entries, ∀ comps, enclosed_name e = some comps →
        install <+: resolveComps install comps) ∧
    (∀ p ∈ (extract_entries install fs entries).dirs,
        p ∈ fs.dirs ∨ install <+: p) ∧
    (∀ p ∈ (extract_entries install fs entries).files,
        p ∈ fs.files ∨ install <+: p) :=
  ⟨fun _ _ comps hc => enclosed_resolves_within install hc,
   (extract_entries_mem install entries fs hfs).1,
   (extract_entries_mem install entries fs hfs).2⟩

/-- Concrete install directory for the witnesses. -/
def installW : List String := ["C:", "PrivatePDF", "ollama"]

/-- Concrete filesystem holding the install directory and its ancestors. -/
def fsW : FS := { dirs := installW.inits, files := [] }

/-- A benign archive entry. -/
def entryGood : ZipEntry := ⟨false, [PathComp.normal "ollama.exe"], false⟩

/-- A path-traversal entry whose name would resolve above the install
directory. -/
def entryEvil : ZipEntry :=
  ⟨false, [PathComp.parent, PathComp.parent, PathComp.normal "evil.exe"], false⟩

theorem claim_C5_witness :
    (∀ e ∈ [entryGood, entryEvil], ∀ comps, enclosed_name e = some comps →
        installW <+: resolveComps installW comps) ∧
    (∀ p ∈ (extract_entries installW fsW [entryGood, entryEvil]).dirs,
        p ∈ fsW.dirs ∨ installW <+: p) ∧
    (∀ p ∈ (extract_entries installW fsW [entryGood, entryEvil]).files,
        p ∈ fsW.files ∨ installW <+: p) :=
  claim_C5 installW fsW [entryGood, entryEvil]
    (fun q hq => (List.mem_inits q installW).mpr hq)

/-- Path rendering for the Installed-to message. -/
def pathDisplay (p : List String) : String := String.intercalate "\\" p

/-- Environment of download_ollama_zip: the LOCALAPPDATA lookup, the
outcome of the archive download (request, HTTP status and byte stream
collapsed into one result carrying the would-be error message), the outcome
of opening and reading the ZIP archive, and the initial filesystem.  The
progress and status events emitted with window.emit(..).ok() carry no
control flow and are not modelled. -/
structure ZipEnv where
  localappdata : Except String (List String)
  download : Except String Unit
  archive : Except String (List ZipEntry)
  fs0 : FS

/-- The final verification stage of download_ollama_zip: succeed iff
ollama.exe exists at the deterministic install path. -/
def verify_install (fs5 : FS) (install_path : List String) :
    FS × Except String String :=
  let ollama_exe := install_path ++ ["ollama.exe"]
  if fs5.files.contains ollama_exe || fs5.dirs.contains ollama_exe then
    (fs5, Except.ok ("Installed to: " ++ pathDisplay install_path))
  else
    (fs5, Except.error "Extraction failed: ollama.exe not found")

/-- The Windows install workflow of download_ollama_zip: pick the release
URL by the GPU flag, build the install and temp paths under LOCALAPPDATA,
create the temp parent directory, download the archive to the temp file,
extract every entry, best-effort-delete the temp file, and finally verify
that ollama.exe exists at the deterministic install path. -/
def download_ollama_zip (is_amd_gpu : Bool) (env : ZipEnv) :
    FS × Except String String :=
  match env.localappdata with
  | Except.error e => (env.fs0, Except.error ("Failed to get LOCALAPPDATA: " ++ e))
  | Except.ok localappdata =>
    let install_path := localappdata ++ ["PrivatePDF", "ollama"]
    let temp_zip_path := localappdata ++ ["PrivatePDF", "ollama_temp.zip"]
    let fs1 := create_dir_all env.fs0 (localappdata ++ ["PrivatePDF"]) []
    match env.download with
    | Except.error e => (fs1, Except.error e)
    | Except.ok _ =>
      let fs2 : FS := { fs1 with files := fs1.files ++ [temp_zip_path] }
      match env.archive with
      | Except.error e => (fs2, Except.error e)
      | Except.ok entries =>
        let fs3 := create_dir_all fs2 install_path []
        let fs4 := extract_entries install_path fs3 entries
        let fs5 : FS := { fs4 with
          files := fs4.files.filter (fun p => p != temp_zip_path) }
        verify_install fs5 install_path

/-- C8: when the LOCALAPPDATA lookup, the download and the archive read all
succeed (so extraction and temp-file cleanup complete), the workflow still
verifies that ollama.exe exists at the deterministic install path: it
returns the extraction-failed error exactly when the executable is absent
from the resulting filesystem, and returns success exactly when it is
present. -/
theorem claim_C8 (is_amd_gpu : Bool) (env : ZipEnv) (lad : List String)
    (entries : List ZipEntry)
    (hl : env.localappdata = Except.ok lad)
    (hd : env.download = Except.ok ())
    (ha : env.archive = Except.ok entries) :
    (((download_ollama_zip is_amd_gpu env).1.files.contains
          (lad ++ ["PrivatePDF", "ollama"] ++ ["ollama.exe"]) ||
      (download_ollama_zip is_amd_gpu env).1.dirs.contains
          (lad ++ ["PrivatePDF", "ollama"] ++ ["ollama.exe"])) = false →
      (download_ollama_zip is_amd_gpu env).2 =
        Except.error "Extraction failed: ollama.exe not found") ∧
    (((download_ollama_zip is_amd_gpu env).1.files.contains
          (lad ++ ["PrivatePDF", "ollama"] ++ ["ollama.exe"]) ||
      (download_ollama_zip is_amd_gpu env).1.dirs.contains
          (lad ++ ["PrivatePDF", "ollama"] ++ ["ollama.exe"])) = true →
      (download_ollama_zip is_amd_gpu env).2 =
        Except.ok ("Installed to: " ++
          pathDisplay (lad ++ ["PrivatePDF", "ollama"]))) := by
  have hstep : ∀ (fs5 : FS) (install : List String),
      (verify_install fs5 install).1 = fs5 ∧
      ((fs5.files.contains (install ++ ["ollama.exe"]) ||
        fs5.dirs.contains (install ++ ["ollama.exe"])) = false →
        (verify_install fs5 install).2 =
          Except.error "Extraction failed: ollama.exe not found") ∧
      ((fs5.files.contains (install ++ ["ollama.exe"]) ||
        fs5.dirs.contains (install ++ ["ollama.exe"])) = true →
        (verify_install fs5 install).2 =
          Except.ok ("Installed to: " ++ pathDisplay install)) := by
    intro fs5 install
    cases hc : (fs5.files.contains (install ++ ["ollama.exe"]) ||
        fs5.dirs.contains (install ++ ["ollama.exe"])) with
    | false =>
      refine ⟨?_, fun _ => ?_, fun hx => nomatch hx⟩
      · simp only [verify_install]
        rw [hc]
        simp
      · simp only [verify_install]
        rw [hc]
        simp
    | true =>
      refine ⟨?_, fun hx => absurd hx (by simp), fun _ => ?_⟩
      · simp only [verify_install]
        rw [hc]
        simp
      · simp only [verify_install]
        rw [hc]
        simp
  have heq : download_ollama_zip is_amd_gpu env =
      verify_install (download_ollama_zip is_amd_gpu env).1
        (lad ++ ["PrivatePDF", "ollama"]) := by
    simp only [download_ollama_zip, hl, hd, ha]
    rw [(hstep _ _).1]
  constructor
  · intro h
    exact (congrArg Prod.snd heq).trans ((hstep _ _).2.1 h)
  · intro h
    exact (congrArg Prod.snd heq).trans ((hstep _ _).2.2 h)

/-- Concrete LOCALAPPDATA components for the C8 witness. -/
def ladW : List String := ["C:", "Users", "u", "AppData", "Local"]

/-- A concrete environment whose archive lacks ollama.exe: every stage
succeeds, yet verification must fail. -/
def envW : ZipEnv :=
  { localappdata := Except.ok ladW,
    download := Except.ok (),
    archive := Except.ok [⟨false, [PathComp.normal "lib.dll"], false⟩],
    fs0 := ⟨[], []⟩ }

theorem claim_C8_witness :
    (download_ollama_zip false envW).2 =
      Except.error "Extraction failed: ollama.exe not found" :=
  (claim_C8 false envW ladW [⟨false, [PathComp.normal "lib.dll"], false⟩]
    rfl rfl rfl).1 (by decide)

/-! ## The byte level of the streaming decoder

The source receives network chunks as byte buffers and runs
buffer.push_str(&String::from_utf8_lossy(&chunk)) (ollama.rs:433, 691)
before draining lines: each byte chunk is decoded to characters in
isolation, with every maximal invalid UTF-8 subpart replaced by one U+FFFD.
A byte split inside a multi-byte character therefore corrupts it, which
refutes byte-level split invariance; splits at character boundaries are
shown invariant below. -/

/-- Model of String::from_utf8_lossy: UTF-8 decoding with U+FFFD
substitution of maximal invalid subparts (truncated sequences, stray
continuation bytes, overlong forms, surrogates and out-of-range leads are
invalid).  Continuation bytes are read with headD 0 — the default 0 is not
a valid continuation byte, so a missing byte fails the same checks a wrong
byte does.  Fuel-based so that it is structurally recursive; one code point
consumes one unit of fuel, so the byte count always suffices. -/
def utf8LossyGo : Nat → List Nat → List Char
  | _, [] => []
  | 0, _ :: _ => []
  | f + 1, b :: rest =>
    if b < 0x80 then Char.ofNat b :: utf8LossyGo f rest
    else if 0xC2 ≤ b ∧ b ≤ 0xDF then
      if 0x80 ≤ rest.headD 0 ∧ rest.headD 0 < 0xC0 then
        Char.ofNat ((b - 0xC0) * 64 + (rest.headD 0 - 0x80)) :: utf8LossyGo f rest.tail
      else Char.ofNat 0xFFFD :: utf8LossyGo f rest
    else if 0xE0 ≤ b ∧ b ≤ 0xEF then
      if (if b = 0xE0 then 0xA0 else 0x80) ≤ rest.headD 0 ∧
          rest.headD 0 ≤ (if b = 0xED then 0x9F else 0xBF) then
        if 0x80 ≤ rest.tail.headD 0 ∧ rest.tail.headD 0 < 0xC0 then
          Char.ofNat ((b - 0xE0) * 4096 + (rest.headD 0 - 0x80) * 64 +
            (rest.tail.headD 0 - 0x80)) :: utf8LossyGo f rest.tail.tail
        else Char.ofNat 0xFFFD :: utf8LossyGo f rest.tail
      else Char.ofNat 0xFFFD :: utf8LossyGo f rest
    else if 0xF0 ≤ b ∧ b ≤ 0xF4 then
      if (if b = 0xF0 then 0x90 else 0x80) ≤ rest.headD 0 ∧
          rest.headD 0 ≤ (if b = 0xF4 then 0x8F else 0xBF) then
        if 0x80 ≤ rest.tail.headD 0 ∧ rest.tail.headD 0 < 0xC0 then
          if 0x80 ≤ rest.tail.tail.headD 0 ∧ rest.tail.tail.headD 0 < 0xC0 then
            Char.ofNat ((b - 0xF0) * 0x40000 + (rest.headD 0 - 0x80) * 4096 +
              (rest.tail.headD 0 - 0x80) * 64 + (rest.tail.tail.headD 0 - 0x80)) ::
              utf8LossyGo f rest.tail.tail.tail
          else Char.ofNat 0xFFFD :: utf8LossyGo f rest.tail.tail
        else Char.ofNat 0xFFFD :: utf8LossyGo f rest.tail
      else Char.ofNat 0xFFFD :: utf8LossyGo f rest
    else Char.ofNat 0xFFFD :: utf8LossyGo f rest

/-- String::from_utf8_lossy on one byte chunk. -/
def utf8Lossy (bytes : List Nat) : List Char := utf8LossyGo bytes.length bytes

/-- The UTF-8 encoding of one character (1 to 4 bytes). -/
def utf8EncodeChar (c : Char) : List Nat :=
  let n := c.toNat
  if n < 0x80 then [n]
  else if n < 0x800 then [0xC0 + n / 64, 0x80 + n % 64]
  else if n < 0x10000 then
    [0xE0 + n / 4096, 0x80 + n / 64 % 64, 0x80 + n % 64]
  else [0xF0 + n / 0x40000, 0x80 + n / 4096 % 64, 0x80 + n / 64 % 64, 0x80 + n % 64]

/-- The UTF-8 encoding of a character sequence. -/
def utf8Encode (cs : List Char) : List Nat := (cs.map utf8EncodeChar).flatten

/-- One byte-level loop iteration of the source: decode the byte chunk with
from_utf8_lossy, append the characters to the buffer, drain lines. -/
def byteFeedChunk (parse : List Char → Option Json)
    (st : List Json × List Char) (chunk : List Nat) : List Json × List Char :=
  feedChunk parse st (utf8Lossy chunk)

/-- The decoder over a sequence of byte chunks, as the source runs it. -/
def byteDecodeChunks (parse : List Char → Option Json)
    (chunks : List (List Nat)) : List Json × List Char :=
  chunks.foldl (byteFeedChunk parse) ([], [])

theorem utf8LossyGo_nil (f : Nat) : utf8LossyGo f [] = [] := by
  cases f <;> rfl

/-- Decoding the encoding of one character consumes exactly that character:
the decoder inverts the encoder at every character boundary. -/
theorem go_encodeChar (c : Char) (bs : List Nat) (f : Nat) :
    utf8LossyGo (f + 1) (utf8EncodeChar c ++ bs) = c :: utf8LossyGo f bs := by
  have hofn : Char.ofNat c.toNat = c := Char.ofNat_toNat c
  have hv : c.toNat < 0xD800 ∨ (0xDFFF < c.toNat ∧ c.toNat < 0x110000) := by
    rcases c.valid with h | h
    · exact Or.inl (by simpa [Char.toNat] using h)
    · exact Or.inr ⟨by simpa [Char.toNat] using h.1,
        by simpa [Char.toNat] using h.2⟩
  by_cases h1 : c.toNat < 0x80
  · have he : utf8EncodeChar c = [c.toNat] := by
      rw [utf8EncodeChar]
      simp only [if_pos h1]
    rw [he, List.cons_append, List.nil_append, utf8LossyGo, if_pos h1, hofn]
  · by_cases h2 : c.toNat < 0x800
    · have he : utf8EncodeChar c = [0xC0 + c.toNat / 64, 0x80 + c.toNat % 64] := by
        rw [utf8EncodeChar]
        simp only [if_neg h1, if_pos h2]
      rw [he, List.cons_append, List.cons_append, List.nil_append, utf8LossyGo]
      rw [if_neg (by omega), if_pos (by omega)]
      simp only [List.headD_cons, List.tail_cons]
      rw [if_pos (by omega)]
      rw [show (0xC0 + c.toNat / 64 - 0xC0) * 64 + (0x80 + c.toNat % 64 - 0x80)
          = c.toNat by omega, hofn]
    · by_cases h3 : c.toNat < 0x10000
      · have he : utf8EncodeChar c = [0xE0 + c.toNat / 4096,
            0x80 + c.toNat / 64 % 64, 0x80 + c.toNat % 64] := by
          rw [utf8EncodeChar]
          simp only [if_neg h1, if_neg h2, if_pos h3]
        rw [he, List.cons_append, List.cons_append, List.cons_append,
          List.nil_append, utf8LossyGo]
        rw [if_neg (by omega), if_neg (by omega)]
        simp only [List.headD_cons, List.tail_cons]
        rw [if_pos (by omega), if_pos (by constructor <;> split <;> omega),
          if_pos (by omega)]
        rw [show (0xE0 + c.toNat / 4096 - 0xE0) * 4096 +
            (0x80 + c.toNat / 64 % 64 - 0x80) * 64 + (0x80 + c.toNat % 64 - 0x80)
            = c.toNat by omega, hofn]
      · have h4 : c.toNat < 0x110000 := by omega
        have he : utf8EncodeChar c = [0xF0 + c.toNat / 0x40000,
            0x80 + c.toNat / 4096 % 64, 0x80 + c.toNat / 64 % 64,
            0x80 + c.toNat % 64] := by
          rw [utf8EncodeChar]
          simp only [if_neg h1, if_neg h2, if_neg h3]
        rw [he, List.cons_append, List.cons_append, List.cons_append,
          List.cons_append, List.nil_append, utf8LossyGo]
        rw [if_neg (by omega), if_neg (by omega), if_neg (by omega)]
        simp only [List.headD_cons, List.tail_cons]
        rw [if_pos (by omega), if_pos (by constructor <;> split <;> omega),
          if_pos (by omega), if_pos (by omega)]
        rw [show (0xF0 + c.toNat / 0x40000 - 0xF0) * 0x40000 +
            (0x80 + c.toNat / 4096 % 64 - 0x80) * 4096 +
            (0x80 + c.toNat / 64 % 64 - 0x80) * 64 + (0x80 + c.toNat % 64 - 0x80)
            = c.toNat by omega, hofn]

theorem utf8Encode_cons (c : Char) (cs : List Char) :
    utf8Encode (c :: cs) = utf8EncodeChar c ++ utf8Encode cs := by
  simp [utf8Encode]

theorem go_encode (cs : List Char) :
    ∀ (f : Nat) (bs : List Nat),
      utf8LossyGo (cs.length + f) (utf8Encode cs ++ bs) = cs ++ utf8LossyGo f bs := by
  induction cs with
  | nil =>
    intro f bs
    simp [utf8Encode]
  | cons c cs ih =>
    intro f bs
    rw [utf8Encode_cons, List.append_assoc]
    rw [show (c :: cs).length + f = (cs.length + f) + 1 by simp; omega]
    rw [go_encodeChar c (utf8Encode cs ++ bs) (cs.length + f), ih f bs]
    rfl

theorem length_le_utf8Encode (cs : List Char) :
    cs.length ≤ (utf8Encode cs).length := by
  induction cs with
  | nil => simp [utf8Encode]
  | cons c cs ih =>
    rw [utf8Encode_cons, List.length_append, List.length_cons]
    have h1 : 1 ≤ (utf8EncodeChar c).length := by
      rw [utf8EncodeChar]
      split_ifs <;> simp
    omega

/-- from_utf8_lossy inverts utf8Encode: a chunk consisting of whole
characters decodes losslessly. -/
theorem utf8Lossy_encode (cs : List Char) : utf8Lossy (utf8Encode cs) = cs := by
  have hk : cs.length ≤ (utf8Encode cs).length := length_le_utf8Encode cs
  rw [utf8Lossy,
    show (utf8Encode cs).length
      = cs.length + ((utf8Encode cs).length - cs.length) by omega]
  have hgo := go_encode cs ((utf8Encode cs).length - cs.length) []
  rw [List.append_nil] at hgo
  rw [hgo, utf8LossyGo_nil, List.append_nil]

/-- Feeding character-aligned byte chunks equals the character-level loop. -/
theorem byteDecodeChunks_encode (parse : List Char → Option Json)
    (charChunks : List (List Char)) :
    byteDecodeChunks parse (charChunks.map utf8Encode) =
      decodeChunks parse charChunks := by
  rw [byteDecodeChunks, decodeChunks, List.foldl_map]
  congr 1
  funext st c
  rw [byteFeedChunk, utf8Lossy_encode]

/-- C1 (amended): the byte-split invariance claimed for the streaming
decoder holds for every split whose chunk boundaries fall on UTF-8
character boundaries (each chunk a whole number of encoded characters, in
particular any split of a pure-ASCII stream): the decoder yields the same
ordered record sequence and final buffer as the whole stream delivered as
one chunk, and the buffer kept for the next chunk never contains a line
break, so an in-progress record is never assumed to end at a chunk
boundary.  At a byte split inside a multi-byte character the invariance
fails in the source (see the counterexample), because from_utf8_lossy is
applied to each chunk in isolation. -/
theorem claim_C1_amended (parse : List Char → Option Json)
    (charChunks : List (List Char)) :
    byteDecodeChunks parse (charChunks.map utf8Encode) =
      byteDecodeChunks parse [utf8Encode charChunks.flatten] ∧
    '\n' ∉ (byteDecodeChunks parse (charChunks.map utf8Encode)).2 := by
  have h1 := byteDecodeChunks_encode parse charChunks
  have h2 := byteDecodeChunks_encode parse [charChunks.flatten]
  simp only [List.map_cons, List.map_nil] at h2
  rw [h1, h2]
  exact decode_split_invariant parse charChunks

/-- serde_json::from_str restricted to the two lines of the counterexample:
the line "é" (a valid one-character JSON string document) parses to the
string é, and its corrupted variant with two replacement characters parses
to that two-character string, as serde would parse them. -/
def parseCex : List Char → Option Json := fun l =>
  if l = ['"', 'é', '"'] then some (Json.str "é")
  else if l = ['"', '�', '�', '"'] then some (Json.str "��")
  else none

/-- C1 (counterexample): the byte stream of the NDJSON line "é" plus a
newline (bytes 22 C3 A9 22 0A), split between the two bytes C3 A9 of é,
decodes to a different record than the same bytes delivered as one chunk:
the per-chunk from_utf8_lossy turns the split character into two U+FFFD,
so the claimed byte-split invariance fails on the source. -/
theorem claim_C1_cex :
    ¬ ((byteDecodeChunks parseCex [[0x22, 0xC3], [0xA9, 0x22, 0x0A]]).1.map
          (fun r => (Json.as_str r).getD "") =
       (byteDecodeChunks parseCex
          [([[0x22, 0xC3], [0xA9, 0x22, 0x0A]] : List (List Nat)).flatten]).1.map
          (fun r => (Json.as_str r).getD "")) := by
  simp only [byteDecodeChunks, List.foldl_cons, List.foldl_nil, byteFeedChunk,
    feedChunk_def, List.flatten_cons, List.flatten_nil, List.append_nil]
  decide
